import Mathlib

/-!
Verification development for the `sd-core` crate of the sd-visualiser
repository.  The Rust sources are shallowly embedded: machine integers
(`usize`) become `Nat` (no arithmetic in the embedded fragment overflows),
`Vec`/`BTreeSet` become `List`, hash-map/hash-set iteration order — which Rust
leaves unspecified — becomes an explicit list parameter, and fallible code
returns `Except`/`Option`.
-/

namespace SD

/-- Embedding of `Port { node: NodeIndex, index: PortIndex }`
from `hypergraph.rs`. `NodeIndex`/`PortIndex` are newtypes over `usize`,
embedded as `Nat`. -/
structure Port where
  node : Nat
  index : Nat
deriving DecidableEq, Repr

mutual
/-- Embedding of `enum MonoidalOp` from `monoidal.rs`.  `Op` (the operation
weight, `crate::graph::Op`) is opaque to `monoidal.rs` and is embedded as a
`Nat` tag. -/
inductive MonoidalOp where
  | copy (copies : Nat)
  | operation (inputs : Nat) (opName : Nat)
  | thunk (args : Nat) (body : MonoidalGraph) (expanded : Bool)
  | swap

/-- Embedding of `struct MonoidalGraph { inputs, slices }` from `monoidal.rs`.
A `Slice { ops: Vec<(MonoidalOp, Vec<NodeIndex>)> }` is embedded as the list
of its `ops`. -/
inductive MonoidalGraph where
  | mk (inputs : Nat) (slices : List (List (MonoidalOp × List Nat)))
end

/-- A `Slice` is its list of `(op, address)` pairs. -/
abbrev Slice := List (MonoidalOp × List Nat)

def MonoidalGraph.inputs : MonoidalGraph → Nat
  | .mk i _ => i

def MonoidalGraph.slices : MonoidalGraph → List Slice
  | .mk _ s => s

/-- `pub const ID: MonoidalOp = MonoidalOp::Copy { copies: 1 }`. -/
def ID : MonoidalOp := .copy 1

/-- `MonoidalOp::number_of_inputs`. -/
def MonoidalOp.numberOfInputs : MonoidalOp → Nat
  | .copy _ => 1
  | .operation inputs _ => inputs
  | .thunk args body _ => body.inputs - args
  | .swap => 2

/-- `MonoidalOp::number_of_outputs`. -/
def MonoidalOp.numberOfOutputs : MonoidalOp → Nat
  | .copy copies => copies
  | .operation _ _ => 1
  | .thunk _ _ _ => 1
  | .swap => 2

/-- `Slice::number_of_inputs`. -/
def Slice.numberOfInputs (s : Slice) : Nat :=
  (s.map (fun p => p.1.numberOfInputs)).sum

/-- `Slice::number_of_outputs`. -/
def Slice.numberOfOutputs (s : Slice) : Nat :=
  (s.map (fun p => p.1.numberOfOutputs)).sum

/-- One pass of the inner `while i + 1 < permutation.len()` scan of
`Slice::permutation_to_swaps`: returns the ops pushed during this pass, the
permutation after the pass's swaps, and whether any swap was made (the
negation of the `finished` flag).  The Rust scan compares the pair at `i`;
on `permutation[i] <= permutation[i+1]` it pushes `ID` and advances by one,
otherwise it pushes `Swap`, swaps the pair and advances by two; a trailing
lone element receives an `ID`. -/
def sweep (pfx : List Nat) : List Nat → Slice × List Nat × Bool
  | [] => ([], [], false)
  | [a] => ([(ID, pfx)], [a], false)
  | a :: b :: t =>
    if a ≤ b then
      let r := sweep pfx (b :: t)
      ((ID, pfx) :: r.1, a :: r.2.1, r.2.2)
    else
      let r := sweep pfx t
      ((.swap, pfx) :: r.1, b :: a :: r.2.1, true)

/-- Number of inversions of a list; the termination measure for the outer
`while !finished` loop of `permutation_to_swaps`. -/
def inversions : List Nat → Nat
  | [] => 0
  | a :: l => l.countP (fun b => decide (b < a)) + inversions l

/-- The outer `while !finished` loop of `Slice::permutation_to_swaps`,
with explicit fuel.  Each iteration runs one `sweep`; if the sweep made a
swap the slice is pushed and the loop continues, otherwise the loop stops
(the final, clean pass's ops are discarded, as in the source).  The fuel
only bounds the number of slice-producing passes; `permutationToSwaps`
supplies `inversions p`, which is sufficient because every
slice-producing pass strictly decreases `inversions`. -/
def ptsAux (pfx : List Nat) : Nat → List Nat → List Slice
  | fuel, p =>
    match sweep pfx p with
    | (ops, p', true) =>
      match fuel with
      | 0 => []
      | f + 1 => ops :: ptsAux pfx f p'
    | (_, _, false) => []

/-- Embedding of `Slice::permutation_to_swaps`. -/
def permutationToSwaps (permutation : List Nat) (pfx : List Nat) : List Slice :=
  ptsAux pfx (inversions permutation) permutation

/-- Embedding of `struct Wiring { forward: Vec<BTreeSet<usize>>, backward: Vec<usize> }`.
Each `forward` entry only ever receives the strictly increasing fresh values
`backward.len()`, so the `BTreeSet` is embedded as the (sorted) list of its
elements and `insert` as an append. -/
structure Wiring where
  forward : List (List Nat)
  backward : List Nat
deriving DecidableEq, Repr

/-- `Wiring::new`. -/
def Wiring.new (inputs : Nat) : Wiring :=
  ⟨List.replicate inputs [], []⟩

/-- Replace the element at index `i` (out-of-range: unchanged; the Rust
indexing `self.forward[input]` would panic, which no embedded call reaches). -/
def listModify (l : List α) (i : Nat) (f : α → α) : List α :=
  match l, i with
  | [], _ => []
  | x :: xs, 0 => f x :: xs
  | x :: xs, n + 1 => x :: listModify xs n f

/-- `Wiring::add_wire`. -/
def Wiring.addWire (w : Wiring) (input : Nat) : Wiring :=
  { forward := listModify w.forward input (fun s => s ++ [w.backward.length])
    backward := w.backward ++ [input] }

/-- `Wiring::to_slices`. -/
def Wiring.toSlices (w : Wiring) (pfx : List Nat) : List Slice :=
  let slices := permutationToSwaps w.backward pfx
  let copySlice : Slice := w.forward.map (fun x => (MonoidalOp.copy x.length, pfx))
  let isEmpty := w.forward.all (fun x => x.length == 1)
  (if isEmpty then slices else slices ++ [copySlice]).reverse

/-- Applies one swap layer (a slice built out of `ID` and `Swap` ops, as
produced by `permutation_to_swaps`) to a list of wires: a `Swap` exchanges the
two wires at its position, an identity wire passes one wire through. -/
def applySlice : Slice → List Nat → List Nat
  | (MonoidalOp.swap, _) :: ops, a :: b :: l => b :: a :: applySlice ops l
  | (MonoidalOp.copy 1, _) :: ops, a :: l => a :: applySlice ops l
  | _, l => l

/-- The permutation reached when the `while !finished` loop of
`permutation_to_swaps` stops (mirrors the recursion of `ptsAux`). -/
def ptsFinal (pfx : List Nat) : Nat → List Nat → List Nat
  | fuel, p =>
    match sweep pfx p with
    | (_, p', true) =>
      match fuel with
      | 0 => p'
      | f + 1 => ptsFinal pfx f p'
    | (_, _, false) => p

/-- The running invariant of `Wiring` under `add_wire`:
`forward` has one (sorted) demand set per input, `backward` records each
wire's input, and the two are mutually inverse. -/
def WiringInv (w : Wiring) (n : Nat) (calls : List Nat) : Prop :=
  w.forward.length = n
  ∧ (∀ i, i < n → ∀ j, j ∈ w.forward.getD i [] ↔ w.backward.get? j = some i)
  ∧ (∀ v ∈ w.backward, v < n)
  ∧ (∀ i, i < n → (w.forward.getD i []).length = calls.count i)
  ∧ w.backward.length = calls.length

/-- Embedding of `enum Node<E>` from `hypergraph.rs` (named `GraphNode` at its
use sites in `monoidal.rs`).  The weight type `E` is embedded as a `Nat` tag;
a thunk owns its body hypergraph, a list of `NodeInfo` triples
`(data, inputs, outputs)` indexed by position (the slab is append-only here,
so slab keys are positions and `vacant_key` is the length). -/
inductive GraphNode where
  | weight (op : Nat)
  | input
  | output
  | thunk (args : Nat) (body : List (GraphNode × List Port × List (List Port)))

/-- Embedding of `struct NodeInfo<E> { data, inputs, outputs }`. Each entry of
`outputs` is one output port's consumer set (`HashSet<Port>`), embedded as the
list of its elements in insertion order. -/
abbrev NodeInfo := GraphNode × List Port × List (List Port)

/-- Embedding of `struct HyperGraph<E> { nodes: Slab<NodeInfo<E>> }`. -/
abbrev HyperGraph := List NodeInfo

def NodeInfo.data (n : NodeInfo) : GraphNode := n.1

def NodeInfo.inputList (n : NodeInfo) : List Port := n.2.1

def NodeInfo.outputSets (n : NodeInfo) : List (List Port) := n.2.2

/-- Embedding of `enum HyperGraphError`. -/
inductive HyperGraphError where
  | unknownNode (n : Nat)
  | unknownPort (p : Port)
deriving DecidableEq, Repr

/-- `HashSet::insert` on a consumer set: add the port if not present. -/
def setInsert (s : List Port) (p : Port) : List Port :=
  if p ∈ s then s else s ++ [p]

/-- The validation/wiring loop of `HyperGraph::add_node`: for the `i`-th input
port, look up the source node (else `UnknownNode`), look up its output-port
consumer set (else `UnknownPort`), and insert `(next_node, i)` into it.  The
graph state accumulated so far is returned even on failure, exactly as the
Rust `&mut self` loop leaves earlier insertions in place. -/
def addNodeLoop (next : Nat) :
    HyperGraph → Nat → List Port → HyperGraph × Option HyperGraphError
  | g, _, [] => (g, none)
  | g, i, port :: rest =>
    match g.get? port.node with
    | none => (g, some (.unknownNode port.node))
    | some info =>
      match info.outputSets.get? port.index with
      | none => (g, some (.unknownPort port))
      | some _ =>
        let g' := listModify g port.node (fun inf =>
          (inf.data, inf.inputList,
            listModify inf.outputSets port.index
              (fun s => setInsert s ⟨next, i⟩)))
        addNodeLoop next g' (i + 1) rest

/-- Embedding of `HyperGraph::add_node`: wires every input into its source's
consumer set, then allocates the new node at the vacant key (the length).
On error, the partially wired graph is returned alongside the error. -/
def addNode (g : HyperGraph) (data : GraphNode) (inputs : List Port)
    (outputPorts : Nat) : HyperGraph × Except HyperGraphError Nat :=
  let next := g.length
  match addNodeLoop next g 0 inputs with
  | (g', some e) => (g', .error e)
  | (g', none) =>
    (g' ++ [(data, inputs, List.replicate outputPorts [])], .ok next)

/-- The one-input graph used to exhibit C2's failure: a single `Input` node
with one output port and, as yet, no consumers. -/
def c2Graph : HyperGraph := [(GraphNode.input, [], [[]])]

def GraphNode.isInput : GraphNode → Bool
  | .input => true
  | _ => false

def GraphNode.isOutput : GraphNode → Bool
  | .output => true
  | _ => false

def isInputAt (g : HyperGraph) (n : Nat) : Bool :=
  match g.get? n with
  | some info => info.data.isInput
  | none => false

def isOutputAt (g : HyperGraph) (n : Nat) : Bool :=
  match g.get? n with
  | some info => info.data.isOutput
  | none => false

/-- `o.outputs.iter().flat_map(|x| x.iter().map(|y| y.node))`: the consumer
nodes of `n`'s output ports. -/
def consumers (g : HyperGraph) (n : Nat) : List Nat :=
  match g.get? n with
  | none => []
  | some info => info.outputSets.join.map (·.node)

/-- The `Input` nodes of the graph (the `inputs` `HashSet`), in slab order. -/
def inputNodes (g : HyperGraph) : List Nat :=
  (List.range g.length).filter (fun n => isInputAt g n)

/-- The `Output` nodes of the graph (the `outputs` `HashSet`), in slab order. -/
def outputNodes (g : HyperGraph) : List Nat :=
  (List.range g.length).filter (fun n => isOutputAt g n)

/-- The non-boundary nodes remaining after
`nodes.retain(|x,_| !inputs.contains(x) && !outputs.contains(x))`. -/
def nonBoundary (g : HyperGraph) : List Nat :=
  (List.range g.length).filter
    (fun n => !(isInputAt g n) && !(isOutputAt g n))

/-- One pass of the `while !nodes.is_empty()` loop body: scan the remainder in
iteration order; a node all of whose consumers are in the *current* `collected`
set (which grows during the scan, as in the source, where
`collected.insert(*n)` happens inside the iteration) is added to `collected`
and to the next rank.  Returns (new collected, next rank). -/
def ranksPass (g : HyperGraph) (collected : List Nat) :
    List Nat → List Nat × List Nat
  | [] => (collected, [])
  | n :: rest =>
    if (consumers g n).all (fun z => decide (z ∈ collected)) then
      let r := ranksPass g (collected ++ [n]) rest
      (r.1, n :: r.2)
    else ranksPass g collected rest

/-- The `while !nodes.is_empty()` loop of `ranks_from_end`, with fuel.  A pass
that makes no progress repeats forever in the source (documented as a defect
for cyclic graphs); the embedding returns `none` for that divergence. -/
def ranksAux (g : HyperGraph) : Nat → List Nat → List Nat → Option (List (List Nat))
  | fuel, collected, rem =>
    match rem with
    | [] => some []
    | _ :: _ =>
      match fuel with
      | 0 => none
      | f + 1 =>
        let r := ranksPass g collected rem
        let rem' := rem.filter (fun x => decide (x ∉ r.2))
        (ranksAux g f r.1 rem').map (r.2 :: ·)

/-- Embedding of `HyperGraph::ranks_from_end`, parametrized by the `HashMap`
iteration order `order` of the non-boundary remainder.  Returns
`(inputs, ranks, outputs)`; `ranks = none` models the infinite loop on a
remainder that can make no progress. -/
def ranksFromEnd (g : HyperGraph) (order : List Nat) :
    List Nat × Option (List (List Nat)) × List Nat :=
  (inputNodes g, ranksAux g order.length (outputNodes g) order, outputNodes g)

/-- The chain hypergraph `I → a → b → O` (nodes 0,1,2,3): node 1's only
consumer is node 2. -/
def chainGraph : HyperGraph :=
  [ (.input, [], [[⟨1, 0⟩]]),
    (.weight 0, [⟨0, 0⟩], [[⟨2, 0⟩]]),
    (.weight 1, [⟨1, 0⟩], [[⟨3, 0⟩]]),
    (.output, [⟨2, 0⟩], []) ]

/-- Embedding of `struct NReachable { depth_limit, seen, frontier, next_nodes }`
minus the function pointer, which is passed to `nreachStep` instead. -/
structure NReachable where
  depthLimit : Nat
  seen : List Nat
  frontier : List (Nat × Nat)
deriving DecidableEq, Repr

/-- Embedding of `<NReachable as Iterator>::next`: pop the front frontier
entry; an entry beyond the depth limit is pushed back and `none` is returned
(so the iterator can be resumed after `increase_depth_limit`); otherwise the
node is inserted into `seen`, its successors not in `seen` are enqueued with
depth `d + 1`, and the node is yielded.  Returns the yielded item and the new
state. -/
def nreachStep (nextNodes : Nat → List Nat) (s : NReachable) :
    Option Nat × NReachable :=
  match s.frontier with
  | [] => (none, s)
  | (d, node) :: rest =>
    if s.depthLimit < d then (none, s)
    else
      let seen' := if node ∈ s.seen then s.seen else s.seen ++ [node]
      let enq := (nextNodes node).filter (fun x => decide (x ∉ seen'))
      (some node,
        { s with seen := seen', frontier := rest ++ enq.map (fun x => (d + 1, x)) })

/-- Embedding of `Node::forward_reachable_n` (modulo the successor function,
which in the source is the `next_nodes` field): depth limit, empty `seen`,
frontier seeded with `(0, start)`. -/
def forwardReachableN (start : Nat) (depthLimit : Nat) : NReachable :=
  ⟨depthLimit, [], [(0, start)]⟩

/-- The items produced by calling `next()` up to `k` times (a `none` leaves
the state unchanged, so iteration is stopped there). -/
def nreachRun (nextNodes : Nat → List Nat) : Nat → NReachable → List Nat
  | 0, _ => []
  | k + 1, s =>
    match nreachStep nextNodes s with
    | (some x, s') => x :: nreachRun nextNodes k s'
    | (none, _) => []

/-- The successor function of the diamond graph `0 → {1, 2} → 3` (each list is
duplicate-free, as `successors()` is after `.unique()`). -/
def diamondSucc : Nat → List Nat
  | 0 => [1, 2]
  | 1 => [3]
  | 2 => [3]
  | _ => []

abbrev ThunkId := Nat

/-- Modelled from the spec: a node of the wrapped graph is an `Operation` or a
`Thunk` (`Node<G::Ctx>`). -/
inductive InnerNode where
  | operation (op : Nat)
  | thunk (t : ThunkId)
deriving DecidableEq, Repr

/-- Modelled from the spec: `WeakMap<Thunk, bool>` (`weak_map.rs` is not under
`src/`) as an association list keyed by thunk identity. -/
abbrev WeakMap := List (ThunkId × Bool)

def wmLookup (m : WeakMap) (t : ThunkId) : Option Bool :=
  (m.find? (fun e => e.1 == t)).map (·.2)

/-- `expanded[thunk] ^= true`: flip the flag stored at key `t`. -/
def wmToggleAt (m : WeakMap) (t : ThunkId) : WeakMap :=
  m.map (fun e => if e.1 = t then (e.1, xor e.2 true) else e)

/-- Modelled from the spec: the capabilities of the wrapped `Graph`/`EdgeLike`
implementation that the collapse adaptor forwards to — its nodes, boundary
edges (by edge id), each edge's source and targets, and each node's backlink
chain of enclosing thunks (innermost first), which `find_ancestor` walks. -/
structure InnerGraph where
  nodes : List InnerNode
  graphInputList : List Nat
  graphOutputList : List Nat
  edgeSource : Nat → Option InnerNode
  edgeTargets : Nat → List (Option InnerNode)
  ancestorChain : InnerNode → List ThunkId

/-- Embedding of `struct CollapseGraph { graph, expanded }`. -/
structure CollapseGraph where
  graph : InnerGraph
  expanded : WeakMap

/-- Embedding of `CollapseGraph::toggle`: clone the map, flip the flag at the
thunk, and swap the wrapped map; the wrapped graph is untouched. -/
def CollapseGraph.toggle (g : CollapseGraph) (t : ThunkId) : CollapseGraph :=
  { g with expanded := wmToggleAt g.expanded t }

/-- The nodes of the collapsed view: `CollapseOperation` keeps the inner node,
`CollapseThunk` keeps the thunk id. -/
inductive CollapseNode where
  | operation (inner : InnerNode)
  | thunk (t : ThunkId)
deriving DecidableEq, Repr

/-- Embedding of `CollapseNode::new`: an operation stays an operation; a thunk
stays a thunk iff its expansion flag is set, else it becomes an opaque
operation wrapping the thunk. -/
def collapseNodeNew (expanded : WeakMap) (n : InnerNode) : CollapseNode :=
  match n with
  | .operation op => .operation (.operation op)
  | .thunk t =>
    if (wmLookup expanded t).getD false then .thunk t
    else .operation (.thunk t)

/-- Embedding of `find_ancestor`: the first thunk on the backlink chain
satisfying the predicate. -/
def findAncestor (chain : List ThunkId) (f : ThunkId → Bool) : Option ThunkId :=
  chain.find? f

/-- `CollapseGraph::nodes`: the wrapped graph's nodes through
`CollapseNode::new`. -/
def CollapseGraph.nodesView (g : CollapseGraph) : List CollapseNode :=
  g.graph.nodes.map (collapseNodeNew g.expanded)

/-- `CollapseEdge::source`. -/
def CollapseGraph.sourceView (g : CollapseGraph) (e : Nat) : Option CollapseNode :=
  (g.graph.edgeSource e).map (collapseNodeNew g.expanded)

/-- `CollapseEdge::targets`: a target transitively contained in a collapsed
thunk is replaced by the innermost collapsed ancestor thunk. -/
def CollapseGraph.targetsView (g : CollapseGraph) (e : Nat) :
    List (Option CollapseNode) :=
  (g.graph.edgeTargets e).map (fun tgt => tgt.map (fun node =>
    match findAncestor (g.graph.ancestorChain node)
        (fun th => !((wmLookup g.expanded th).getD false)) with
    | some th => collapseNodeNew g.expanded (.thunk th)
    | none => collapseNodeNew g.expanded node))

/-- `CollapseGraph::free_graph_inputs` / `graph_outputs` wrap the inner edges
unchanged (edge ids in the embedding). -/
def CollapseGraph.graphInputsView (g : CollapseGraph) : List Nat :=
  g.graph.graphInputList

def CollapseGraph.graphOutputsView (g : CollapseGraph) : List Nat :=
  g.graph.graphOutputList

/-- A concrete instance for the witness: one thunk node, flag present. -/
def c9Inner : InnerGraph :=
  ⟨[InnerNode.thunk 0], [], [], fun _ => none, fun _ => [], fun _ => []⟩

def c9Graph : CollapseGraph := ⟨c9Inner, [(0, false)]⟩

/-- Embedding of `enum FromHyperError`. -/
inductive FromHyperError where
  | emptyGraph
  | hyperGraphError (e : HyperGraphError)
deriving DecidableEq, Repr

mutual
/-- Embedding of `enum MonoidalWiredOp` from `monoidal.rs`. -/
inductive MonoidalWiredOp where
  | id (port : Port)
  | operation (inputs : List Port) (opName : Nat)
  | thunk (inputs : List Port) (args : Nat) (body : MonoidalWiredGraph)

/-- Embedding of `struct MonoidalWiredGraph { inputs, slices, wirings }`;
a `WiredSlice { ops }` is the list of its ops. -/
inductive MonoidalWiredGraph where
  | mk (inputs : Nat) (slices : List (List (MonoidalWiredOp × List Nat)))
      (wirings : List Wiring)
end

/-- A `WiredSlice` is its list of `(op, address)` pairs. -/
abbrev WiredSlice := List (MonoidalWiredOp × List Nat)

def MonoidalWiredGraph.inputs : MonoidalWiredGraph → Nat
  | .mk i _ _ => i

def MonoidalWiredGraph.slices : MonoidalWiredGraph → List WiredSlice
  | .mk _ s _ => s

def MonoidalWiredGraph.wirings : MonoidalWiredGraph → List Wiring
  | .mk _ _ w => w

/-- `MonoidalWiredOp::input_ports`. -/
def MonoidalWiredOp.inputPorts : MonoidalWiredOp → List Port
  | .id port => [port]
  | .operation inputs _ => inputs
  | .thunk inputs _ _ => inputs

/-- `HyperGraph::get_info` (the underlying lookup of `get`, `get_inputs`,
`number_of_outputs`). -/
def getInfo (g : HyperGraph) (n : Nat) : Except HyperGraphError NodeInfo :=
  match g.get? n with
  | some info => .ok info
  | none => .error (.unknownNode n)

/-- `HyperGraph::number_of_outputs`. -/
def numberOfOutputsE (g : HyperGraph) (n : Nat) : Except HyperGraphError Nat :=
  (getInfo g n).map (fun i => i.outputSets.length)

/-- `HyperGraph::get_inputs` (collected). -/
def getInputsE (g : HyperGraph) (n : Nat) : Except HyperGraphError (List Port) :=
  (getInfo g n).map (fun i => i.inputList)

/-- `HyperGraph::get`. -/
def getNodeE (g : HyperGraph) (n : Nat) : Except HyperGraphError GraphNode :=
  (getInfo g n).map (fun i => i.data)

/-- `usize::MAX`, the weight given to a rank node none of the open wires
refers to. -/
def usizeMax : Nat := 2 ^ 64 - 1

/-- Embedding of `Ratio<usize>` as used by `from_hypergraph`: kept
unnormalized exactly as `Ratio::new_raw` produces it; every weight built here
has a positive denominator. -/
structure RatioW where
  numer : Nat
  denom : Nat
deriving DecidableEq, Repr

/-- The `Ord` on `Ratio` for positive denominators: cross multiplication. -/
def RatioW.le (a b : RatioW) : Bool :=
  decide (a.numer * b.denom ≤ b.numer * a.denom)

/-- Embedding of the local `struct OpData { op, outputs, addr, node, weight }`
of `from_hypergraph`. -/
structure OpData where
  op : Option MonoidalWiredOp
  outputsCount : Nat
  addr : List Nat
  node : Nat
  weight : RatioW

/-- Stable insertion of an earlier element in front of all equal-weight later
ones; `sortByWeight` below is the stable sort `ops.sort_by_key(|d| d.weight)`. -/
def insertSorted (d : OpData) : List OpData → List OpData
  | [] => [d]
  | x :: xs =>
    if d.weight.le x.weight then d :: x :: xs else x :: insertSorted d xs

def sortByWeight : List OpData → List OpData
  | [] => []
  | d :: ds => insertSorted d (sortByWeight ds)

/-- `BTreeMap::insert`, on an association list (later inserts overwrite). -/
def amInsert (m : List (Port × Nat)) (k : Port) (v : Nat) : List (Port × Nat) :=
  if m.any (fun e => e.1 == k) then m.map (fun e => if e.1 = k then (k, v) else e)
  else m ++ [(k, v)]

/-- `BTreeMap::get`. -/
def amLookup (m : List (Port × Nat)) (k : Port) : Option Nat :=
  (m.find? (fun e => e.1 == k)).map (·.2)

/-- Combined fuel/error bind for `Option (Except FromHyperError ·)`. -/
def obind (x : Option (Except FromHyperError α))
    (f : α → Option (Except FromHyperError β)) :
    Option (Except FromHyperError β) :=
  match x with
  | none => none
  | some (.error e) => some (.error e)
  | some (.ok a) => f a

/-- Lift a `HyperGraphError`-returning lookup through
`#[from] HyperGraphError` (the `?` operator's conversion). -/
def liftHG (x : Except HyperGraphError α) : Option (Except FromHyperError α) :=
  match x with
  | .ok a => some (.ok a)
  | .error e => some (.error (.hyperGraphError e))

/-- The `(sum, count)` fold over the open wires referring to `node`
(`fold((0, 0), |(x, y), (a, b)| (x + a, y + b))` over the enumerated,
filtered open wires). -/
def sumCount (openWires : List Port) (node : Nat) : Nat × Nat :=
  openWires.enum.foldl
    (fun sc e => if e.2.node = node then (sc.1 + e.1, sc.2 + 1) else sc)
    (0, 0)

/-- The second `for node in r.iter()` loop of `from_hypergraph`: build an
`OpData` per rank node (operation, boundary, or — via the recursion callback
`recFn` on the owned body — thunk). -/
def buildNodeOps (recFn : HyperGraph → List Nat → Option (Except FromHyperError MonoidalWiredGraph))
    (g : HyperGraph) (pfx : List Nat) (openWires : List Port) :
    List Nat → Option (Except FromHyperError (List OpData))
  | [] => some (.ok [])
  | node :: rest =>
    let addr := pfx ++ [node]
    let sc := sumCount openWires node
    let weight : RatioW :=
      if sc.2 = 0 then ⟨usizeMax, 1⟩ else ⟨sc.1, sc.2⟩
    obind (liftHG (numberOfOutputsE g node)) (fun outputsCount =>
      obind (match getNodeE g node with
        | .error e => some (.error (.hyperGraphError e))
        | .ok (.weight op) =>
          obind (liftHG (getInputsE g node)) (fun ins =>
            some (.ok (some (MonoidalWiredOp.operation ins op))))
        | .ok .input => some (.ok none)
        | .ok .output => some (.ok none)
        | .ok (.thunk args body) =>
          obind (liftHG (getInputsE g node)) (fun ins =>
            obind (recFn body addr) (fun bodyGraph =>
              some (.ok (some (MonoidalWiredOp.thunk ins args bodyGraph))))))
        (fun op =>
          obind (buildNodeOps recFn g pfx openWires rest) (fun ops =>
            some (.ok (⟨op, outputsCount, addr, node, weight⟩ :: ops)))))

/-- The `for p in open_wires { wiring.add_wire(...) }` loop: each open wire is
looked up in `out_nodes` (else `UnknownPort`). -/
def buildWiring (outNodes : List (Port × Nat)) :
    List Port → Wiring → Option (Except FromHyperError Wiring)
  | [], w => some (.ok w)
  | p :: rest, w =>
    match amLookup outNodes p with
    | some ix => buildWiring outNodes rest (w.addWire ix)
    | none => some (.error (.hyperGraphError (.unknownPort p)))

/-- The accumulating state of the `for r in ranks` loop. -/
structure RankState where
  openWires : List Port
  slices : List WiredSlice
  wirings : List Wiring

/-- One iteration of the `for r in ranks` loop of `from_hypergraph`:
identity ops for open wires not produced in this rank, `OpData` for each rank
node, stable sort by weight, the `out_nodes` port-position map
(`concat_iter` of the per-op port ranges, enumerated and collected), the
wiring for the incoming open wires, the next open wires (the ops' input
ports), and the slice (pushed only when every op is `Some`). -/
def processRank (recFn : HyperGraph → List Nat → Option (Except FromHyperError MonoidalWiredGraph))
    (g : HyperGraph) (pfx : List Nat) (st : RankState) (r : List Nat) :
    Option (Except FromHyperError RankState) :=
  let idOps : List OpData := st.openWires.enum.filterMap (fun e =>
    if e.2.node ∈ r then none
    else some ⟨some (.id e.2), 1, pfx, e.2.node, ⟨e.1, 1⟩⟩)
  obind (buildNodeOps recFn g pfx st.openWires r) (fun nodeOps =>
    let ops := idOps ++ nodeOps
    let numberOfOutPorts := (ops.map (·.outputsCount)).sum
    let sorted := sortByWeight ops
    let outNodes := ((sorted.map (fun d =>
        (List.range d.outputsCount).map (fun ix => (⟨d.node, ix⟩ : Port)))).join.enum).foldl
      (fun m e => amInsert m e.2 e.1) []
    obind (buildWiring outNodes st.openWires (Wiring.new numberOfOutPorts))
      (fun wiring =>
        let openWires' := (sorted.map (fun d =>
          (d.op.map MonoidalWiredOp.inputPorts).getD [])).join
        let sliceOpt : Option WiredSlice :=
          sorted.mapM (fun d => d.op.map (fun o => (o, d.addr)))
        some (.ok
          { openWires := openWires'
            slices := match sliceOpt with
              | some s => st.slices ++ [s]
              | none => st.slices
            wirings := st.wirings ++ [wiring] })))

def processRanks (recFn : HyperGraph → List Nat → Option (Except FromHyperError MonoidalWiredGraph))
    (g : HyperGraph) (pfx : List Nat) :
    RankState → List (List Nat) → Option (Except FromHyperError RankState)
  | st, [] => some (.ok st)
  | st, r :: rest =>
    obind (processRank recFn g pfx st r) (fun st' =>
      processRanks recFn g pfx st' rest)

/-- Embedding of `MonoidalWiredGraph::from_hypergraph`, with fuel for the
recursion into thunk bodies and an order oracle `σ` supplying, per graph, the
`HashMap` iteration order of `ranks_from_end`'s non-boundary remainder.
`none` = out of fuel, or `ranks_from_end` diverging on a cyclic graph. -/
def fromHypergraphAux :
    Nat → (HyperGraph → List Nat) → HyperGraph → List Nat →
      Option (Except FromHyperError MonoidalWiredGraph)
  | 0, _, _, _ => none
  | fuel + 1, σ, g, pfx =>
    match ranksAux g (σ g).length (outputNodes g) (σ g) with
    | none => none
    | some r =>
      obind (processRanks (fromHypergraphAux fuel σ) g pfx
          ⟨((outputNodes g).map (fun x => ((getInputsE g x).toOption.getD []))).join,
            [], []⟩
          (r ++ [inputNodes g]))
        (fun st =>
          some (.ok (MonoidalWiredGraph.mk
            (((inputNodes g).map (fun x =>
              ((numberOfOutputsE g x).toOption.getD 0))).sum)
            st.slices.reverse st.wirings.reverse)))

/-- Embedding of `MonoidalWiredOp::to_monoidal_op`, via the recursion
callback `recFn` for the thunk body's `to_graph`. -/
def toMonoidalOpAux (recFn : MonoidalWiredGraph → List Nat → Option (Except FromHyperError MonoidalGraph))
    (op : MonoidalWiredOp) (nodeAddr : List Nat) :
    Option (Except FromHyperError MonoidalOp) :=
  match op with
  | .id _ => some (.ok ID)
  | .operation inputs opName => some (.ok (.operation inputs.length opName))
  | .thunk _ args body =>
    obind (recFn body nodeAddr) (fun bodyGraph =>
      some (.ok (.thunk args bodyGraph true)))

/-- Embedding of `WiredSlice::to_slice`. -/
def toSliceAux (recFn : MonoidalWiredGraph → List Nat → Option (Except FromHyperError MonoidalGraph)) :
    WiredSlice → Option (Except FromHyperError Slice)
  | [] => some (.ok [])
  | (op, nodeAddr) :: rest =>
    obind (toMonoidalOpAux recFn op nodeAddr) (fun mop =>
      obind (toSliceAux recFn rest) (fun s =>
        some (.ok ((mop, nodeAddr) :: s))))

/-- The `self.slices.iter().map(|x| Ok(vec![x.to_slice()?])).collect()` step
of `to_graph`: each wired slice becomes a singleton slice list. -/
def collectOpSlices (recFn : MonoidalWiredGraph → List Nat → Option (Except FromHyperError MonoidalGraph)) :
    List WiredSlice → Option (Except FromHyperError (List (List Slice)))
  | [] => some (.ok [])
  | ws :: rest =>
    obind (toSliceAux recFn ws) (fun s =>
      obind (collectOpSlices recFn rest) (fun ss =>
        some (.ok ([s] :: ss))))

/-- `Itertools::interleave`: alternate elements starting with the first list;
when one runs out, continue with the rest of the other. -/
def interleave : List α → List α → List α
  | [], ys => ys
  | x :: xs, [] => x :: xs
  | x :: xs, y :: ys => x :: y :: interleave xs ys

/-- Embedding of `MonoidalWiredGraph::to_graph` (fuelled thunk recursion):
interleave the wiring layers' slices with the op slices and concatenate. -/
def toGraphAux : Nat → MonoidalWiredGraph → List Nat →
    Option (Except FromHyperError MonoidalGraph)
  | 0, _, _ => none
  | fuel + 1, wg, pfx =>
    obind (collectOpSlices (toGraphAux fuel) wg.slices) (fun opSlices =>
      some (.ok (MonoidalGraph.mk wg.inputs
        (interleave (wg.wirings.map (fun w => w.toSlices pfx)) opSlices).join)))

/-- `true` exactly on the result `EmptyGraph` (`FromHyperError::EmptyGraph`). -/
def isEGErr : Option (Except FromHyperError α) → Bool
  | some (.error .emptyGraph) => true
  | _ => false

/-- The default boundary-only hypergraph (`HyperGraph::default()`): one
`Input` and one `Output` node with zero ports each. -/
def defaultGraph : HyperGraph := [(.input, [], []), (.output, [], [])]

/-- The arity-composition invariant of claim C1, as a checker on a
`MonoidalGraph`: adjacent slices have matching arities. -/
def adjacentArity : List Slice → Bool
  | s1 :: s2 :: rest =>
    (Slice.numberOfOutputs s1 == Slice.numberOfInputs s2)
      && adjacentArity (s2 :: rest)
  | _ => true

/-- The full renderer invariant: adjacent arities match and the first slice's
input count equals the graph's declared `inputs`. -/
def arityInvariant (mg : MonoidalGraph) : Bool :=
  adjacentArity mg.slices
    && (match mg.slices.head? with
        | some s => Slice.numberOfInputs s == mg.inputs
        | none => true)

/-! ## Theorems -/

theorem sweep_perm (pfx : List Nat) : ∀ p : List Nat, (sweep pfx p).2.1.Perm p
  | [] => by simp [sweep]
  | [a] => by simp [sweep]
  | a :: b :: t => by
    by_cases h : a ≤ b
    · simpa [sweep, h] using (sweep_perm pfx (b :: t)).cons a
    · simpa [sweep, h] using ((sweep_perm pfx t).cons a |>.cons b).trans
        (List.Perm.swap a b t)

theorem applySlice_sweep (pfx : List Nat) :
    ∀ p : List Nat, applySlice (sweep pfx p).1 p = (sweep pfx p).2.1
  | [] => rfl
  | [_] => rfl
  | a :: b :: t => by
    by_cases h : a ≤ b
    · simpa [sweep, h, applySlice, ID] using applySlice_sweep pfx (b :: t)
    · simpa [sweep, h, applySlice] using applySlice_sweep pfx t

theorem applySlice_sweep_inv (pfx : List Nat) :
    ∀ p : List Nat, applySlice (sweep pfx p).1 (sweep pfx p).2.1 = p
  | [] => rfl
  | [_] => rfl
  | a :: b :: t => by
    by_cases h : a ≤ b
    · simpa [sweep, h, applySlice, ID] using applySlice_sweep_inv pfx (b :: t)
    · simpa [sweep, h, applySlice] using applySlice_sweep_inv pfx t

theorem sweep_false_eq (pfx : List Nat) :
    ∀ p : List Nat, (sweep pfx p).2.2 = false → (sweep pfx p).2.1 = p
  | [] => fun _ => rfl
  | [_] => fun _ => rfl
  | a :: b :: t => by
    by_cases h : a ≤ b
    · intro hf
      have hf' : (sweep pfx (b :: t)).2.2 = false := by
        simpa [sweep, h] using hf
      simp [sweep, h, sweep_false_eq pfx (b :: t) hf']
    · intro hf
      simp [sweep, h] at hf

theorem sweep_false_chain (pfx : List Nat) :
    ∀ p : List Nat, (sweep pfx p).2.2 = false → p.Chain' (· ≤ ·)
  | [] => fun _ => List.chain'_nil
  | [_] => fun _ => List.chain'_singleton _
  | a :: b :: t => by
    by_cases h : a ≤ b
    · intro hf
      have hf' : (sweep pfx (b :: t)).2.2 = false := by
        simpa [sweep, h] using hf
      exact (sweep_false_chain pfx (b :: t) hf').cons h
    · intro hf
      simp [sweep, h] at hf

theorem inversions_cons (a : Nat) (l : List Nat) :
    inversions (a :: l) = l.countP (fun b => decide (b < a)) + inversions l := rfl

theorem inversions_sweep (pfx : List Nat) :
    ∀ p : List Nat,
      inversions (sweep pfx p).2.1 + (if (sweep pfx p).2.2 then 1 else 0)
        ≤ inversions p
  | [] => by simp [sweep, inversions]
  | [a] => by simp [sweep, inversions]
  | a :: b :: t => by
    by_cases h : a ≤ b
    · have ih := inversions_sweep pfx (b :: t)
      have hc := (sweep_perm pfx (b :: t)).countP_eq (fun x => decide (x < a))
      simp only [sweep, h, if_true, inversions_cons] at ih hc ⊢
      omega
    · have ih := inversions_sweep pfx t
      have hca := (sweep_perm pfx t).countP_eq (fun x => decide (x < a))
      have hcb := (sweep_perm pfx t).countP_eq (fun x => decide (x < b))
      have hba : b < a := Nat.lt_of_not_le h
      have e1 : inversions (a :: b :: t) =
          1 + t.countP (fun x => decide (x < a)) + t.countP (fun x => decide (x < b))
            + inversions t := by
        rw [inversions_cons, inversions_cons, List.countP_cons]
        simp [hba]
        omega
      have e2 : inversions (b :: a :: (sweep pfx t).2.1) =
          (sweep pfx t).2.1.countP (fun x => decide (x < b))
            + (sweep pfx t).2.1.countP (fun x => decide (x < a))
            + inversions (sweep pfx t).2.1 := by
        rw [inversions_cons, inversions_cons, List.countP_cons]
        simp [Nat.not_lt.mpr (Nat.le_of_lt hba)]
        omega
      simp only [sweep, h, if_false, e2] at ih ⊢
      rw [e1]
      simp only [if_true]
      omega

theorem ptsAux_false (pfx : List Nat) (fuel : Nat) (p : List Nat)
    (h : (sweep pfx p).2.2 = false) : ptsAux pfx fuel p = [] := by
  unfold ptsAux
  split
  · rename_i heq
    rw [heq] at h
    simp at h
  · rfl

theorem ptsAux_true (pfx : List Nat) (f : Nat) (p p' : List Nat) (ops : Slice)
    (hs : sweep pfx p = (ops, p', true)) :
    ptsAux pfx (f + 1) p = ops :: ptsAux pfx f p' := by
  conv_lhs => rw [ptsAux]
  rw [hs]

theorem ptsFinal_false (pfx : List Nat) (fuel : Nat) (p : List Nat)
    (h : (sweep pfx p).2.2 = false) : ptsFinal pfx fuel p = p := by
  unfold ptsFinal
  split
  · rename_i heq
    rw [heq] at h
    simp at h
  · rfl

theorem ptsFinal_true (pfx : List Nat) (f : Nat) (p p' : List Nat) (ops : Slice)
    (hs : sweep pfx p = (ops, p', true)) :
    ptsFinal pfx (f + 1) p = ptsFinal pfx f p' := by
  conv_lhs => rw [ptsFinal]
  rw [hs]

theorem ptsAux_length (pfx : List Nat) :
    ∀ (fuel : Nat) (p : List Nat), inversions p ≤ fuel →
      (ptsAux pfx fuel p).length ≤ inversions p := by
  intro fuel
  induction fuel with
  | zero =>
    intro p hp
    have hk := inversions_sweep pfx p
    match hs : sweep pfx p with
    | (ops, p', true) =>
      rw [hs] at hk
      simp at hk
      omega
    | (ops, p', false) =>
      rw [ptsAux_false pfx _ p (by rw [hs])]
      simp
  | succ f ih =>
    intro p hp
    have hk := inversions_sweep pfx p
    match hs : sweep pfx p with
    | (ops, p', true) =>
      rw [hs] at hk
      simp at hk
      have hrec := ih p' (by omega)
      rw [ptsAux_true pfx f p p' ops hs]
      simp only [List.length_cons]
      omega
    | (ops, p', false) =>
      rw [ptsAux_false pfx _ p (by rw [hs])]
      simp

theorem ptsFinal_spec (pfx : List Nat) :
    ∀ (fuel : Nat) (p : List Nat), inversions p ≤ fuel →
      (ptsFinal pfx fuel p).Perm p ∧ (ptsFinal pfx fuel p).Chain' (· ≤ ·) ∧
      (ptsAux pfx fuel p).foldr applySlice (ptsFinal pfx fuel p) = p ∧
      (ptsAux pfx fuel p).foldl (fun q s => applySlice s q) p = ptsFinal pfx fuel p := by
  intro fuel
  induction fuel with
  | zero =>
    intro p hp
    have hk := inversions_sweep pfx p
    match hs : sweep pfx p with
    | (ops, p', true) =>
      rw [hs] at hk
      simp at hk
      omega
    | (ops, p', false) =>
      have hb : (sweep pfx p).2.2 = false := by rw [hs]
      rw [ptsAux_false pfx _ p hb, ptsFinal_false pfx _ p hb]
      exact ⟨List.Perm.refl p, sweep_false_chain pfx p hb, rfl, rfl⟩
  | succ f ih =>
    intro p hp
    have hk := inversions_sweep pfx p
    match hs : sweep pfx p with
    | (ops, p', true) =>
      rw [hs] at hk
      simp at hk
      obtain ⟨h1, h2, h3, h4⟩ := ih p' (by omega)
      have hperm : p'.Perm p := by
        have := sweep_perm pfx p
        rw [hs] at this
        exact this
      have hinv : applySlice ops p' = p := by
        have := applySlice_sweep_inv pfx p
        rw [hs] at this
        exact this
      have hfwd : applySlice ops p = p' := by
        have := applySlice_sweep pfx p
        rw [hs] at this
        exact this
      have ea := ptsAux_true pfx f p p' ops hs
      have ef := ptsFinal_true pfx f p p' ops hs
      rw [ea, ef]
      refine ⟨h1.trans hperm, h2, ?_, ?_⟩
      · simp only [List.foldr_cons, h3, hinv]
      · simp only [List.foldl_cons, hfwd, h4]
    | (ops, p', false) =>
      have hb : (sweep pfx p).2.2 = false := by rw [hs]
      rw [ptsAux_false pfx _ p hb, ptsFinal_false pfx _ p hb]
      exact ⟨List.Perm.refl p, sweep_false_chain pfx p hb, rfl, rfl⟩

/-- For a permutation of `0..n-1`, the loop's final permutation is the
identity `List.range n`. -/
theorem ptsFinal_range (pfx : List Nat) (n : Nat) (p : List Nat)
    (hp : p.Perm (List.range n)) :
    ptsFinal pfx (inversions p) p = List.range n := by
  obtain ⟨h1, h2, -, -⟩ := ptsFinal_spec pfx (inversions p) p (Nat.le_refl _)
  have s1 : List.Sorted (· ≤ ·) (ptsFinal pfx (inversions p) p) :=
    List.chain'_iff_pairwise.mp h2
  have s2 : List.Sorted (· ≤ ·) (List.range n) :=
    (List.pairwise_lt_range n).imp Nat.le_of_lt
  exact List.eq_of_perm_of_sorted (h1.trans hp) s1 s2

theorem inversions_le_choose : ∀ l : List Nat, inversions l ≤ l.length.choose 2
  | [] => by simp [inversions]
  | a :: l => by
    have h1 : l.countP (fun b => decide (b < a)) ≤ l.length := List.countP_le_length _
    have h2 := inversions_le_choose l
    have h3 : (l.length + 1).choose 2 = l.length.choose 1 + l.length.choose 2 :=
      Nat.choose_succ_succ l.length 1
    simp only [inversions, List.length_cons, h3, Nat.choose_one_right]
    omega

/-- C7: `Slice::permutation_to_swaps` is a correct sorting network: for every
permutation `p` of `0..n-1`, composing the returned swap layers onto the
identity wire ordering `0..n-1` reproduces `p` (equivalently, applying them
pass by pass to `p` sorts it to the identity); moreover `[1,0]` yields exactly
one slice containing a single `Swap`, `[0,1]` yields zero slices, and
`[1,2,0]` yields exactly the two slices `[id, swap]` then `[swap, id]`. -/
theorem permutation_to_swaps_sorting_network :
    (∀ (n : Nat) (p pfx : List Nat), p.Perm (List.range n) →
      (permutationToSwaps p pfx).foldr applySlice (List.range n) = p ∧
      (permutationToSwaps p pfx).foldl (fun q s => applySlice s q) p = List.range n)
    ∧ permutationToSwaps [1, 0] [] = [[(.swap, [])]]
    ∧ permutationToSwaps [0, 1] [] = []
    ∧ permutationToSwaps [1, 2, 0] [] =
        [[(ID, []), (.swap, [])], [(.swap, []), (ID, [])]] := by
  refine ⟨?_, rfl, rfl, rfl⟩
  intro n p pfx hp
  obtain ⟨-, -, h3, h4⟩ := ptsFinal_spec pfx (inversions p) p (Nat.le_refl _)
  rw [ptsFinal_range pfx n p hp] at h3 h4
  exact ⟨h3, h4⟩

theorem permutation_to_swaps_sorting_network_witness :
    (permutationToSwaps [1, 2, 0] []).foldr applySlice (List.range 3) = [1, 2, 0] :=
  (permutation_to_swaps_sorting_network.1 3 [1, 2, 0] [] (by decide)).1

/-- C8 counterexample: the claimed bound "`permutation_to_swaps` returns at
most `n` slices for `n` wires" is false: the 6-element permutation
`[5,2,3,4,1,0]` needs 7 swap passes, so 7 slices are returned. -/
theorem permutation_to_swaps_pass_bound_cex :
    (permutationToSwaps [5, 2, 3, 4, 1, 0] []).length = 7 ∧
    ¬ (permutationToSwaps [5, 2, 3, 4, 1, 0] []).length
        ≤ [5, 2, 3, 4, 1, 0].length := by
  constructor
  · rfl
  · intro h
    have : (7 : Nat) ≤ 6 := by
      have e : (permutationToSwaps [5, 2, 3, 4, 1, 0] []).length = 7 := rfl
      rw [e] at h
      simpa using h
    omega

/-- C8 (amended): `permutation_to_swaps` terminates on every input; every
slice-producing (non-final) pass removes at least one inversion from the
working permutation, so the returned vector contains at most
`inversions p ≤ (n choose 2)` slices — but not, in general, at most `n`. -/
theorem permutation_to_swaps_terminates_inversions_bound :
    (∀ (p pfx : List Nat), (permutationToSwaps p pfx).length ≤ inversions p)
    ∧ (∀ p : List Nat, inversions p ≤ p.length.choose 2)
    ∧ (∀ (pfx p : List Nat) (ops : Slice) (p' : List Nat),
        sweep pfx p = (ops, p', true) → inversions p' < inversions p) := by
  refine ⟨fun p pfx => ptsAux_length pfx (inversions p) p (Nat.le_refl _),
    inversions_le_choose, ?_⟩
  intro pfx p ops p' hs
  have h := inversions_sweep pfx p
  rw [hs] at h
  simp at h
  omega

theorem permutation_to_swaps_terminates_inversions_bound_witness :
    inversions [0, 1] < inversions [1, 0] :=
  permutation_to_swaps_terminates_inversions_bound.2.2 [] [1, 0]
    [(.swap, [])] [0, 1] rfl

theorem listModify_length (l : List α) (i : Nat) (f : α → α) :
    (listModify l i f).length = l.length := by
  induction l generalizing i with
  | nil => rfl
  | cons x xs ih =>
    cases i with
    | zero => rfl
    | succ n => simp [listModify, ih]

theorem listModify_getD_eq (l : List α) (i : Nat) (f : α → α) (d : α)
    (h : i < l.length) : (listModify l i f).getD i d = f (l.getD i d) := by
  induction l generalizing i with
  | nil => simp at h
  | cons x xs ih =>
    cases i with
    | zero => rfl
    | succ n =>
      simp only [listModify, List.getD_cons_succ]
      exact ih n (by simpa using h)

theorem listModify_getD_ne (l : List α) (i j : Nat) (f : α → α) (d : α)
    (h : i ≠ j) : (listModify l i f).getD j d = l.getD j d := by
  induction l generalizing i j with
  | nil => rfl
  | cons x xs ih =>
    cases i with
    | zero =>
      cases j with
      | zero => exact absurd rfl h
      | succ m => rfl
    | succ n =>
      cases j with
      | zero => rfl
      | succ m =>
        simp only [listModify, List.getD_cons_succ]
        exact ih n m (by omega)

theorem getD_replicate_nil (n i : Nat) :
    (List.replicate n ([] : List Nat)).getD i [] = [] := by
  induction n generalizing i with
  | zero => cases i <;> rfl
  | succ m ih =>
    cases i with
    | zero => rfl
    | succ k => simpa [List.replicate] using ih k

theorem wiringInv_new (n : Nat) : WiringInv (Wiring.new n) n [] := by
  refine ⟨by simp [Wiring.new], ?_, by simp [Wiring.new], ?_, by simp [Wiring.new]⟩
  · intro i _ j
    simp [Wiring.new, getD_replicate_nil]
  · intro i _
    simp [Wiring.new, getD_replicate_nil]

theorem wiringInv_addWire (w : Wiring) (n : Nat) (calls : List Nat) (c : Nat)
    (hc : c < n) (hw : WiringInv w n calls) :
    WiringInv (w.addWire c) n (calls ++ [c]) := by
  obtain ⟨hlen, hmem, hbnd, hcnt, hblen⟩ := hw
  have hclen : c < w.forward.length := hlen ▸ hc
  refine ⟨by simp [Wiring.addWire, listModify_length, hlen], ?_, ?_, ?_, ?_⟩
  · intro i hi j
    by_cases hic : i = c
    · subst hic
      rw [show (w.addWire i).forward.getD i [] =
          w.forward.getD i [] ++ [w.backward.length] from
        listModify_getD_eq w.forward i _ [] hclen]
      constructor
      · intro hj
        rcases List.mem_append.mp hj with hj | hj
        · have := (hmem i hi j).mp hj
          have hjlt : j < w.backward.length := List.get?_eq_some.mp this |>.1
          show (w.backward ++ [i]).get? j = some i
          rw [List.get?_append hjlt]
          exact this
        · have hj' : j = w.backward.length := by simpa using hj
          subst hj'
          show (w.backward ++ [i]).get? w.backward.length = some i
          exact List.get?_concat_length w.backward i
      · intro hj
        by_cases hjl : j < w.backward.length
        · have : w.backward.get? j = some i := by
            have := hj
            rwa [show (w.addWire i).backward = w.backward ++ [i] from rfl,
              List.get?_append hjl] at this
          exact List.mem_append.mpr (Or.inl ((hmem i hi j).mpr this))
        · have hj' : j = w.backward.length := by
            have hlt : j < (w.backward ++ [i]).length :=
              List.get?_eq_some.mp hj |>.1
            simp at hlt
            omega
          subst hj'
          simp
    · rw [show (w.addWire c).forward.getD i [] = w.forward.getD i [] from
        listModify_getD_ne w.forward c i _ [] (fun h => hic h.symm)]
      constructor
      · intro hj
        have := (hmem i hi j).mp hj
        have hjlt : j < w.backward.length := List.get?_eq_some.mp this |>.1
        show (w.backward ++ [c]).get? j = some i
        rw [List.get?_append hjlt]
        exact this
      · intro hj
        by_cases hjl : j < w.backward.length
        · have : w.backward.get? j = some i := by
            have := hj
            rwa [show (w.addWire c).backward = w.backward ++ [c] from rfl,
              List.get?_append hjl] at this
          exact (hmem i hi j).mpr this
        · exfalso
          have hlt : j < (w.backward ++ [c]).length := List.get?_eq_some.mp hj |>.1
          simp at hlt
          have hj' : j = w.backward.length := by omega
          subst hj'
          have : (w.backward ++ [c]).get? w.backward.length = some c :=
            List.get?_concat_length w.backward c
          rw [show (w.addWire c).backward = w.backward ++ [c] from rfl, this] at hj
          exact hic (Option.some.inj hj).symm
  · intro v hv
    rcases List.mem_append.mp hv with hv | hv
    · exact hbnd v hv
    · have hvc : v = c := by simpa using hv
      subst hvc
      exact hc
  · intro i hi
    by_cases hic : i = c
    · subst hic
      rw [show (w.addWire i).forward.getD i [] =
          w.forward.getD i [] ++ [w.backward.length] from
        listModify_getD_eq w.forward i _ [] hclen]
      rw [List.length_append, hcnt i hi, List.count_append]
      have hone : List.count i [i] = 1 := by simp
      simp [hone]
    · rw [show (w.addWire c).forward.getD i [] = w.forward.getD i [] from
        listModify_getD_ne w.forward c i _ [] (fun h => hic h.symm)]
      rw [hcnt i hi, List.count_append]
      have hzero : List.count i [c] = 0 := by
        simp [List.count_eq_zero, hic]
      simp [hzero]
  · simp [Wiring.addWire, hblen]

theorem wiringInv_foldl (n : Nat) (calls : List Nat) (h : ∀ c ∈ calls, c < n) :
    WiringInv (calls.foldl Wiring.addWire (Wiring.new n)) n calls := by
  induction calls using List.reverseRecOn with
  | nil => exact wiringInv_new n
  | append_singleton cs c ih =>
    rw [List.foldl_append]
    exact wiringInv_addWire _ n cs c (h c (by simp))
      (ih (fun x hx => h x (by simp [hx])))

/-- C10: starting from `Wiring::new(n)`, after any sequence of
`add_wire(i)` calls with every `i < n`, `forward` and `backward` are mutually
inverse (`backward[j] = i` iff `j ∈ forward[i]`); hence the `forward` sets
are pairwise disjoint, their union is exactly `{0, …, backward.len() - 1}`,
and `forward[i].len()` is the number of times input `i` was demanded — the
`Copy` arity later emitted by `to_slices` for input `i`. -/
theorem wiring_forward_backward_inverse (n : Nat) (calls : List Nat)
    (h : ∀ c ∈ calls, c < n) :
    (∀ i, i < n → ∀ j,
      j ∈ (calls.foldl Wiring.addWire (Wiring.new n)).forward.getD i []
        ↔ (calls.foldl Wiring.addWire (Wiring.new n)).backward.get? j = some i)
    ∧ (∀ i₁ i₂, i₁ < n → i₂ < n → i₁ ≠ i₂ → ∀ j,
        ¬(j ∈ (calls.foldl Wiring.addWire (Wiring.new n)).forward.getD i₁ []
          ∧ j ∈ (calls.foldl Wiring.addWire (Wiring.new n)).forward.getD i₂ []))
    ∧ (∀ j, j < (calls.foldl Wiring.addWire (Wiring.new n)).backward.length
        ↔ ∃ i, i < n ∧
          j ∈ (calls.foldl Wiring.addWire (Wiring.new n)).forward.getD i [])
    ∧ (∀ i, i < n →
        ((calls.foldl Wiring.addWire (Wiring.new n)).forward.getD i []).length
          = calls.count i) := by
  obtain ⟨hlen, hmem, hbnd, hcnt, -⟩ := wiringInv_foldl n calls h
  refine ⟨hmem, ?_, ?_, hcnt⟩
  · rintro i₁ i₂ h₁ h₂ hne j ⟨hj₁, hj₂⟩
    have e₁ := (hmem i₁ h₁ j).mp hj₁
    have e₂ := (hmem i₂ h₂ j).mp hj₂
    rw [e₁] at e₂
    exact hne (Option.some.inj e₂)
  · intro j
    constructor
    · intro hj
      match hg : (calls.foldl Wiring.addWire (Wiring.new n)).backward.get? j with
      | none => exact absurd (List.get?_eq_none.mp hg) (by omega)
      | some v =>
        have hvn : v < n := hbnd v (List.get?_mem hg)
        exact ⟨v, hvn, (hmem v hvn j).mpr hg⟩
    · rintro ⟨i, hi, hj⟩
      exact List.get?_eq_some.mp ((hmem i hi j).mp hj) |>.1

theorem wiring_forward_backward_inverse_witness :
    1 ∈ ((([0, 1, 0] : List Nat).foldl Wiring.addWire (Wiring.new 2)).forward.getD 1 [])
      ↔ (([0, 1, 0] : List Nat).foldl Wiring.addWire (Wiring.new 2)).backward.get? 1
          = some 1 :=
  (wiring_forward_backward_inverse 2 [0, 1, 0] (by decide)).1 1 (by decide) 1

/-- C2: `add_node` is *not* all-or-nothing.  On `c2Graph`, adding a node whose
inputs list is `[(0,0), (5,0)]` fails with `UnknownNode(5)` (node 5 does not
exist), yet node 0's consumer set has already gained the entry `(1,0)` — a
dangling reference to the never-allocated node 1.  The claim says the graph
is left unchanged on failure; the code disagrees. -/
theorem add_node_partial_mutation_on_failure :
    (addNode c2Graph (.weight 0) [⟨0, 0⟩, ⟨5, 0⟩] 1).2 = .error (.unknownNode 5)
    ∧ ((addNode c2Graph (.weight 0) [⟨0, 0⟩, ⟨5, 0⟩] 1).1.map
        (fun i => i.outputSets)) = [[[⟨1, 0⟩]]]
    ∧ (c2Graph.map (fun i => i.outputSets)) = [[[]]] :=
  ⟨rfl, rfl, rfl⟩

/-- C5: because `collected.insert(*n)` happens *during* the pass over the
`HashMap`, an iteration order that visits a consumer before its producer puts
both in the same rank.  On the chain `I → a → b → O` with order `[2, 1]`
(node 2 = `b` first), the single produced rank is `[2, 1]` — node 1 shares a
rank with its consumer 2, although 2 was not collected before the pass began. -/
theorem ranks_from_end_same_rank_as_consumer :
    (ranksFromEnd chainGraph [2, 1]).2.1 = some [[2, 1]]
    ∧ consumers chainGraph 1 = [2]
    ∧ nonBoundary chainGraph = [1, 2] :=
  ⟨rfl, rfl, rfl⟩

theorem ranksPass_snd_sublist (g : HyperGraph) :
    ∀ (collected rem : List Nat), (ranksPass g collected rem).2.Sublist rem
  | _, [] => List.Sublist.refl []
  | collected, n :: rest => by
    by_cases h : (consumers g n).all (fun z => decide (z ∈ collected))
    · simpa [ranksPass, h] using
        (ranksPass_snd_sublist g (collected ++ [n]) rest).cons₂ n
    · simpa [ranksPass, h] using (ranksPass_snd_sublist g collected rest).cons n

theorem ranksPass_fst_eq (g : HyperGraph) :
    ∀ (collected rem : List Nat),
      (ranksPass g collected rem).1 = collected ++ (ranksPass g collected rem).2
  | _, [] => by simp [ranksPass]
  | collected, n :: rest => by
    by_cases h : (consumers g n).all (fun z => decide (z ∈ collected))
    · simp [ranksPass, h, ranksPass_fst_eq g (collected ++ [n]) rest]
    · simp [ranksPass, h, ranksPass_fst_eq g collected rest]

theorem ranksPass_mem (g : HyperGraph) :
    ∀ (collected rem : List Nat) (x : Nat), x ∈ rem →
      (∀ z ∈ consumers g x, z ∈ collected) → x ∈ (ranksPass g collected rem).2
  | collected, n :: rest, x, hx, hz => by
    rcases List.mem_cons.mp hx with hx | hx
    · subst hx
      have h : (consumers g x).all (fun z => decide (z ∈ collected)) := by
        simpa [List.all_eq_true] using hz
      simp [ranksPass, h]
    · by_cases h : (consumers g n).all (fun z => decide (z ∈ collected))
      · have := ranksPass_mem g (collected ++ [n]) rest x hx
          (fun z hzz => List.mem_append.mpr (Or.inl (hz z hzz)))
        simp [ranksPass, h]
        right
        exact this
      · have := ranksPass_mem g collected rest x hx hz
        simpa [ranksPass, h] using this

theorem exists_min_by (f : Nat → Nat) :
    ∀ (l : List Nat), l ≠ [] → ∃ x ∈ l, ∀ y ∈ l, f x ≤ f y
  | [], h => absurd rfl h
  | [a], _ => ⟨a, by simp, by simp⟩
  | a :: b :: t, _ => by
    obtain ⟨x, hx, hmin⟩ := exists_min_by f (b :: t) (by simp)
    by_cases h : f a ≤ f x
    · exact ⟨a, by simp, by
        intro y hy
        rcases List.mem_cons.mp hy with hy | hy
        · exact hy ▸ Nat.le_refl _
        · exact Nat.le_trans h (hmin y hy)⟩
    · exact ⟨x, by simp [hx], by
        intro y hy
        rcases List.mem_cons.mp hy with hy | hy
        · exact hy ▸ Nat.le_of_lt (Nat.lt_of_not_le h)
        · exact hmin y hy⟩

theorem sublist_filter_mem :
    ∀ (nr rem : List Nat), nr.Sublist rem → rem.Nodup →
      rem.filter (fun x => decide (x ∈ nr)) = nr := by
  intro nr rem hs
  induction hs with
  | slnil => intro _; rfl
  | cons a hsub ih =>
    rename_i l₁ l₂
    intro hd
    have hnd : l₂.Nodup := hd.of_cons
    have ha : a ∉ l₂ := (List.nodup_cons.mp hd).1
    have ha1 : a ∉ l₁ := fun hmem => ha (hsub.mem hmem)
    simp only [List.filter_cons, decide_eq_true_eq]
    rw [if_neg (by simpa using ha1)]
    exact ih hnd
  | cons₂ a hsub ih =>
    rename_i l₁ l₂
    intro hd
    have hnd : l₂.Nodup := hd.of_cons
    have ha : a ∉ l₂ := (List.nodup_cons.mp hd).1
    simp only [List.filter_cons, decide_eq_true_eq]
    rw [if_pos (by simp)]
    have : l₂.filter (fun x => decide (x ∈ a :: l₁))
        = l₂.filter (fun x => decide (x ∈ l₁)) := by
      apply List.filter_congr
      intro x hx
      have hxa : x ≠ a := fun h => ha (h ▸ hx)
      simp [List.mem_cons, hxa]
    rw [this, ih hnd]

theorem ranksAux_complete (g : HyperGraph) (f : Nat → Nat)
    (hacyc : ∀ n ∈ nonBoundary g, ∀ z ∈ consumers g n, f z < f n)
    (hwf : ∀ n ∈ nonBoundary g, ∀ z ∈ consumers g n,
      z ∈ nonBoundary g ∨ isOutputAt g z = true) :
    ∀ (fuel : Nat) (collected rem : List Nat),
      rem.length ≤ fuel → rem.Nodup →
      (∀ x ∈ rem, x ∈ nonBoundary g) →
      (∀ z : Nat, isOutputAt g z = true → z ∈ collected) →
      (∀ z ∈ nonBoundary g, z ∉ rem → z ∈ collected) →
      ∃ rs, ranksAux g fuel collected rem = some rs ∧ rs.join.Perm rem := by
  intro fuel
  induction fuel with
  | zero =>
    intro collected rem hlen _ _ _ _
    have : rem = [] := List.length_eq_zero.mp (Nat.le_zero.mp hlen)
    subst this
    exact ⟨[], rfl, List.Perm.refl _⟩
  | succ fl ih =>
    intro collected rem hlen hnd hsub hout hcol
    match rem with
    | [] => exact ⟨[], rfl, List.Perm.refl _⟩
    | n :: rest =>
      set rem := n :: rest with hrem
      -- the pass makes progress: the remainder node with minimal rank joins
      obtain ⟨x, hxmem, hxmin⟩ := exists_min_by f rem (by simp [hrem])
      have hxnb : x ∈ nonBoundary g := hsub x hxmem
      have hxjoin : x ∈ (ranksPass g collected rem).2 := by
        apply ranksPass_mem g collected rem x hxmem
        intro z hz
        rcases hwf x hxnb z hz with hznb | hzout
        · have hzlt : f z < f x := hacyc x hxnb z hz
          have hznotin : z ∉ rem := fun hzin =>
            absurd (hxmin z hzin) (Nat.not_le.mpr hzlt)
          exact hcol z hznb hznotin
        · exact hout z hzout
      set nr := (ranksPass g collected rem).2 with hnr
      have hnrsub : nr.Sublist rem := ranksPass_snd_sublist g collected rem
      have hfilter : rem.filter (fun y => decide (y ∈ nr)) = nr :=
        sublist_filter_mem nr rem hnrsub hnd
      set rem' := rem.filter (fun y => decide (y ∉ nr)) with hrem'
      have hlt : rem'.length < rem.length := by
        rw [hrem']
        refine List.length_filter_lt_length_iff_exists.mpr ⟨x, hxmem, ?_⟩
        simp [hxjoin]
      have hnd' : rem'.Nodup := hnd.filter _
      have hsub' : ∀ y ∈ rem', y ∈ nonBoundary g := fun y hy =>
        hsub y (List.mem_of_mem_filter hy)
      have hcolstep : (ranksPass g collected rem).1 = collected ++ nr :=
        ranksPass_fst_eq g collected rem
      have hout' : ∀ z : Nat, isOutputAt g z = true →
          z ∈ (ranksPass g collected rem).1 := fun z hz => by
        rw [hcolstep]
        exact List.mem_append.mpr (Or.inl (hout z hz))
      have hcol' : ∀ z ∈ nonBoundary g, z ∉ rem' →
          z ∈ (ranksPass g collected rem).1 := by
        intro z hznb hznot
        rw [hcolstep]
        by_cases hzr : z ∈ rem
        · have hzin : z ∈ nr := by
            by_contra hne
            exact hznot (List.mem_filter.mpr ⟨hzr, by simpa using hne⟩)
          exact List.mem_append.mpr (Or.inr hzin)
        · exact List.mem_append.mpr (Or.inl (hcol z hznb hzr))
      obtain ⟨rs', hrs', hperm'⟩ := ih (ranksPass g collected rem).1 rem'
        (by omega) hnd' hsub' hout' hcol'
      refine ⟨nr :: rs', ?_, ?_⟩
      · show ranksAux g (fl + 1) collected rem = some (nr :: rs')
        conv_lhs => rw [hrem, ranksAux]
        rw [← hrem]
        simp only [← hnr, ← hrem', hrs']
        rfl
      · show (nr ++ rs'.join).Perm rem
        have h1 : (nr ++ rs'.join).Perm (nr ++ rem') := hperm'.append_left nr
        have h2 : nr ++ rem' = rem.filter (fun y => decide (y ∈ nr))
            ++ rem.filter (fun y => decide (y ∉ nr)) := by rw [hfilter]
        have h3 : (rem.filter (fun y => decide (y ∈ nr))
            ++ rem.filter (fun y => decide (y ∉ nr))).Perm rem := by
          have hfa := List.filter_append_perm (fun y => decide (y ∈ nr)) rem
          have hneg : (fun y => !decide (y ∈ nr)) = (fun y => decide (y ∉ nr)) := by
            funext y
            by_cases hy : y ∈ nr <;> simp [hy]
          rwa [hneg] at hfa
        exact (h2 ▸ h1).trans h3

/-- C6: on an acyclic, well-formed hypergraph with `k` non-boundary nodes,
`ranks_from_end` terminates for every `HashMap` iteration order of the
remainder, and the returned ranks partition exactly those `k` nodes: their
concatenation is a permutation (hence, being duplicate-free, an exact cover)
of the non-boundary node set, so no rank contains a boundary node, an absent
node, or a duplicate.  Acyclicity is supplied as a rank function `f`
descending along the consumer relation; well-formedness says every consumer
is a real node that is non-boundary or an `Output`. -/
theorem ranks_from_end_partitions (g : HyperGraph) (order : List Nat)
    (f : Nat → Nat)
    (hperm : order.Perm (nonBoundary g))
    (hacyc : ∀ n ∈ nonBoundary g, ∀ z ∈ consumers g n, f z < f n)
    (hwf : ∀ n ∈ nonBoundary g, ∀ z ∈ consumers g n,
      z ∈ nonBoundary g ∨ isOutputAt g z = true) :
    ∃ rs, (ranksFromEnd g order).2.1 = some rs
      ∧ rs.join.Perm (nonBoundary g) ∧ rs.join.Nodup := by
  have hnbnd : (nonBoundary g).Nodup := List.Nodup.filter _ (List.nodup_range _)
  have hnd : order.Nodup := hperm.nodup_iff.mpr hnbnd
  have houtmem : ∀ z : Nat, isOutputAt g z = true → z ∈ outputNodes g := by
    intro z hz
    have hzlen : z < g.length := by
      by_contra hge
      have hnone : g.get? z = none := List.get?_eq_none.mpr (by omega)
      rw [List.get?_eq_getElem?] at hnone
      simp [isOutputAt, hnone] at hz
    exact List.mem_filter.mpr ⟨List.mem_range.mpr hzlen, by simpa using hz⟩
  obtain ⟨rs, hrs, hp⟩ := ranksAux_complete g f hacyc hwf order.length
    (outputNodes g) order (Nat.le_refl _) hnd
    (fun x hx => hperm.mem_iff.mp hx)
    houtmem
    (fun z hznb hznot => absurd (hperm.mem_iff.mpr hznb) hznot)
  exact ⟨rs, hrs, hp.trans hperm, (hp.trans hperm).nodup_iff.mpr hnbnd⟩

theorem ranks_from_end_partitions_witness :
    ∃ rs, (ranksFromEnd chainGraph [1, 2]).2.1 = some rs
      ∧ rs.join.Perm (nonBoundary chainGraph) ∧ rs.join.Nodup :=
  ranks_from_end_partitions chainGraph [1, 2] (fun n => 3 - n)
    (by decide) (by decide) (by decide)

/-- C4: the traversal does *not* yield each node at most once.  `seen` is only
consulted when enqueuing successors, not when popping, so on the diamond
`0 → {1,2} → 3`, node 3 is enqueued by both 1 and 2 before it is first popped,
and is yielded twice by the same iterator instance. -/
theorem nreachable_diamond_yields_node_twice :
    nreachRun diamondSucc 6 (forwardReachableN 0 10) = [0, 1, 2, 3, 3]
    ∧ (nreachRun diamondSucc 6 (forwardReachableN 0 10)).count 3 = 2 :=
  ⟨rfl, rfl⟩

theorem wmToggleAt_twice (m : WeakMap) (t : ThunkId) :
    wmToggleAt (wmToggleAt m t) t = m := by
  simp only [wmToggleAt, List.map_map]
  have he : ∀ e ∈ m,
      ((fun (e : ThunkId × Bool) => if e.1 = t then (e.1, xor e.2 true) else e)
        ∘ fun (e : ThunkId × Bool) => if e.1 = t then (e.1, xor e.2 true) else e)
        e = id e := by
    intro e _
    by_cases h : e.1 = t
    · simp only [Function.comp_apply, h, if_pos, Bool.xor_true, Bool.not_not, id]
      rw [← h]
    · simp [Function.comp_apply, h]
  rw [List.map_congr_left he, List.map_id]

/-- C9: toggling the same thunk twice restores the expansion map, hence the
whole `CollapseGraph`, and every view query (nodes, graph inputs/outputs,
edge sources and targets) answers as before; `toggle` never touches the
wrapped graph. -/
theorem collapse_toggle_twice_restores (g : CollapseGraph) (t : ThunkId)
    (hpresent : (wmLookup g.expanded t).isSome) :
    ((g.toggle t).toggle t) = g
    ∧ ((g.toggle t).toggle t).nodesView = g.nodesView
    ∧ (∀ e, ((g.toggle t).toggle t).sourceView e = g.sourceView e)
    ∧ (∀ e, ((g.toggle t).toggle t).targetsView e = g.targetsView e)
    ∧ ((g.toggle t).toggle t).graphInputsView = g.graphInputsView
    ∧ ((g.toggle t).toggle t).graphOutputsView = g.graphOutputsView
    ∧ (g.toggle t).graph = g.graph := by
  have h : (g.toggle t).toggle t = g := by
    cases g with
    | mk graph expanded =>
      simp [CollapseGraph.toggle, wmToggleAt_twice]
  refine ⟨h, ?_, ?_, ?_, ?_, ?_, rfl⟩ <;> rw [h] <;> simp

theorem collapse_toggle_twice_restores_witness :
    ((c9Graph.toggle 0).toggle 0) = c9Graph :=
  (collapse_toggle_twice_restores c9Graph 0 (by decide)).1

theorem isEGErr_obind {α β : Type} (x : Option (Except FromHyperError α))
    (f : α → Option (Except FromHyperError β))
    (hx : isEGErr x = false) (hf : ∀ a, isEGErr (f a) = false) :
    isEGErr (obind x f) = false := by
  match x with
  | none => rfl
  | some (.error .emptyGraph) => simp [isEGErr] at hx
  | some (.error (.hyperGraphError e)) => rfl
  | some (.ok a) => exact hf a

theorem isEGErr_liftHG {α : Type} (x : Except HyperGraphError α) :
    isEGErr (liftHG x) = false := by
  cases x <;> rfl

theorem isEGErr_buildWiring (outNodes : List (Port × Nat)) :
    ∀ (ps : List Port) (w : Wiring),
      isEGErr (buildWiring outNodes ps w) = false
  | [], _ => rfl
  | p :: rest, w => by
    unfold buildWiring
    match amLookup outNodes p with
    | some ix => exact isEGErr_buildWiring outNodes rest (w.addWire ix)
    | none => rfl

theorem isEGErr_buildNodeOps
    (recFn : HyperGraph → List Nat → Option (Except FromHyperError MonoidalWiredGraph))
    (hrec : ∀ b a, isEGErr (recFn b a) = false)
    (g : HyperGraph) (pfx : List Nat) (openWires : List Port) :
    ∀ r : List Nat, isEGErr (buildNodeOps recFn g pfx openWires r) = false
  | [] => rfl
  | node :: rest => by
    unfold buildNodeOps
    apply isEGErr_obind _ _ (isEGErr_liftHG _)
    intro outputsCount
    apply isEGErr_obind
    · match getNodeE g node with
      | .error e => rfl
      | .ok (.weight op) => exact isEGErr_obind _ _ (isEGErr_liftHG _) (fun _ => rfl)
      | .ok .input => rfl
      | .ok .output => rfl
      | .ok (.thunk args body) =>
        exact isEGErr_obind _ _ (isEGErr_liftHG _)
          (fun _ => isEGErr_obind _ _ (hrec _ _) (fun _ => rfl))
    · intro op
      exact isEGErr_obind _ _
        (isEGErr_buildNodeOps recFn hrec g pfx openWires rest) (fun _ => rfl)

theorem isEGErr_processRank
    (recFn : HyperGraph → List Nat → Option (Except FromHyperError MonoidalWiredGraph))
    (hrec : ∀ b a, isEGErr (recFn b a) = false)
    (g : HyperGraph) (pfx : List Nat) (st : RankState) (r : List Nat) :
    isEGErr (processRank recFn g pfx st r) = false := by
  unfold processRank
  apply isEGErr_obind _ _ (isEGErr_buildNodeOps recFn hrec g pfx st.openWires r)
  intro nodeOps
  exact isEGErr_obind _ _ (isEGErr_buildWiring _ _ _) (fun _ => rfl)

theorem isEGErr_processRanks
    (recFn : HyperGraph → List Nat → Option (Except FromHyperError MonoidalWiredGraph))
    (hrec : ∀ b a, isEGErr (recFn b a) = false)
    (g : HyperGraph) (pfx : List Nat) :
    ∀ (st : RankState) (ranks : List (List Nat)),
      isEGErr (processRanks recFn g pfx st ranks) = false
  | _, [] => rfl
  | st, r :: rest => by
    unfold processRanks
    apply isEGErr_obind _ _ (isEGErr_processRank recFn hrec g pfx st r)
    intro st'
    exact isEGErr_processRanks recFn hrec g pfx st' rest

theorem isEGErr_fromHypergraphAux :
    ∀ (fuel : Nat) (σ : HyperGraph → List Nat) (g : HyperGraph) (pfx : List Nat),
      isEGErr (fromHypergraphAux fuel σ g pfx) = false
  | 0, _, _, _ => rfl
  | fuel + 1, σ, g, pfx => by
    unfold fromHypergraphAux
    cases hr : ranksAux g (σ g).length (outputNodes g) (σ g) with
    | none => rfl
    | some r =>
      apply isEGErr_obind _ _
        (isEGErr_processRanks _ (fun b a => isEGErr_fromHypergraphAux fuel σ b a) g pfx _ _)
      intro st
      rfl

/-- C3 counterexample: on the degenerate boundary-only graph
(`HyperGraph::default()`), `from_hypergraph` does *not* return `EmptyGraph`:
it succeeds with a zero-slice `MonoidalWiredGraph`. -/
theorem from_hypergraph_boundary_only_returns_ok :
    fromHypergraphAux 1 (fun _ => []) defaultGraph []
      = some (.ok (MonoidalWiredGraph.mk 0 [] [Wiring.new 0]))
    ∧ isEGErr (fromHypergraphAux 1 (fun _ => []) defaultGraph []) = false :=
  ⟨rfl, rfl⟩

/-- C3 (amended): `from_hypergraph` *never* returns `EmptyGraph` (for any
fuel, iteration-order oracle, graph and prefix); on a hypergraph with no
non-boundary nodes it succeeds with a zero-slice `MonoidalWiredGraph`
(here, the degenerate `HyperGraph::default()`), rather than treating that
case as an explicit failure. -/
theorem from_hypergraph_never_empty_graph :
    (∀ (fuel : Nat) (σ : HyperGraph → List Nat) (g : HyperGraph) (pfx : List Nat),
      isEGErr (fromHypergraphAux fuel σ g pfx) = false)
    ∧ fromHypergraphAux 1 (fun _ => []) defaultGraph []
        = some (.ok (MonoidalWiredGraph.mk 0 [] [Wiring.new 0])) :=
  ⟨isEGErr_fromHypergraphAux, rfl⟩

/-- C1: the arity-composition invariant is violated by a real execution of
`from_hypergraph` followed by `to_graph`.  On the chain `I → a → b → O` with
the rank pass iterating the `HashMap` as `[2, 1]` (consumer before producer —
the C5 ranking defect), the produced `MonoidalGraph` has `inputs = 1` but
slice input arities `[2, 2]` (and output arities `[2, 1]`): the first slice's
input count is 2 ≠ 1, so `arityInvariant` evaluates to `false`. -/
theorem to_graph_arity_invariant_violated :
    (obind (fromHypergraphAux 2 (fun _ => [2, 1]) chainGraph [])
        (fun wg => toGraphAux 2 wg [])).map (fun r => r.toOption.map
          (fun mg => (mg.inputs, mg.slices.map Slice.numberOfInputs,
            mg.slices.map Slice.numberOfOutputs)))
      = some (some (1, [2, 2], [2, 1]))
    ∧ (obind (fromHypergraphAux 2 (fun _ => [2, 1]) chainGraph [])
        (fun wg => toGraphAux 2 wg [])).map (fun r => r.toOption.map arityInvariant)
      = some (some false) :=
  ⟨by decide, by decide⟩

end SD


